import Mathlib

/-!
Verification development for the `git-utils` repository (crates
`git-utils-core`, `git-branch-delete`, `git-repo`).

The Rust sources are shallowly embedded: each Rust function of interest is
translated into a Lean function over an explicit repository-state record.
External collaborators (libgit2 via the `git2` crate, the `url` crate, the
filesystem) are modelled by their documented contracts, with the pieces of
state the embedded functions consume made explicit fields of the state
record.

Conventions of the embedding:
* Commit identifiers are natural numbers.  Parent links point from a child
  to its parents; a well-formedness predicate `parentsWf` states that every
  parent identifier is strictly smaller than its child (git's object graph
  is acyclic and parents always exist before children, so every repository
  admits such a numbering).
* Rust `Result<T, Error>` becomes `Except Error T`.
* Functions that in Rust mutate the repository return the updated state
  explicitly.
-/

namespace GitUtils

/-- libgit2 error classes the embedded code distinguishes
(`git2::ErrorCode::NotFound` versus anything else). -/
inductive GitCode where
  | notFound
  | generic
deriving DecidableEq

/-- Embedding of `git-utils-core/src/error.rs`: the crate error enum.
`Git` carries the libgit2 error class; `Io` and the message payloads are
kept abstract where the message text does not matter. -/
inductive Error where
  | Git (code : GitCode)
  | NotGitRepository
  | BranchNotFound (name : String)
  | BaseBranchNotFound
  | Io
  | Other (msg : String)
deriving DecidableEq

/-- Repository state: the facts about a local repository that the embedded
functions consume, modelling the `git2::Repository` handle's view.
* `commits`: the set of commit ids present in the object database.
* `parents`: association list mapping a commit to its parent commits.
* `branches`: local branches as (name, tip commit id) pairs.
* `config`: `none` models `repo.config()` failing; otherwise the key/value
  pairs visible to `get_string`.
* `refs`: full names of references that `find_reference` resolves.
* `brokenRefs`: reference names whose lookup fails with an error whose
  class is not `NotFound` (e.g. corrupt loose refs).
* `statuses`: `none` models `repo.statuses(None)` returning `Err`;
  otherwise the list of dirty working-tree entries.
* `pushFails`: branch names for which the external `git push <remote>
  --delete` process exits non-zero. -/
structure GitRepo where
  commits : List Nat
  parents : List (Nat × List Nat)
  branches : List (String × Nat)
  config : List (String × String) := []
  configOk : Bool := true
  refs : List String := []
  brokenRefs : List String := []
  statuses : Option (List String) := some []
  pushFails : List String := []
deriving DecidableEq

/-- Association-list lookup with propositional string equality. -/
def lookupStr {α : Type} : List (String × α) → String → Option α
  | [], _ => none
  | (k, v) :: rest, key => if k = key then some v else lookupStr rest key

/-- Association-list lookup for commit parents. -/
def lookupNat {α : Type} : List (Nat × α) → Nat → Option α
  | [], _ => none
  | (k, v) :: rest, key => if k = key then some v else lookupNat rest key

/-- Parents of a commit (empty when the commit is a root or unknown). -/
def parentsOf (repo : GitRepo) (c : Nat) : List Nat :=
  (lookupNat repo.parents c).getD []

/-- Well-formedness of the commit graph used by the embedding: every
parent id is strictly smaller than its child, so the graph is acyclic and
ancestry can be decided with a fuel bounded by the child's id. -/
def parentsWf (repo : GitRepo) : Bool :=
  repo.parents.all (fun e => e.2.all (fun p => p < e.1))

theorem lookupNat_mem {α : Type} {l : List (Nat × α)} {k : Nat} {v : α}
    (h : lookupNat l k = some v) : (k, v) ∈ l := by
  induction l with
  | nil => simp [lookupNat] at h
  | cons e rest ih =>
    unfold lookupNat at h
    by_cases hc : e.1 = k
    · simp [hc] at h
      cases e
      simp_all
    · simp [hc] at h
      exact List.mem_cons_of_mem _ (ih h)

theorem lookupStr_mem {α : Type} {l : List (String × α)} {k : String} {v : α}
    (h : lookupStr l k = some v) : (k, v) ∈ l := by
  induction l with
  | nil => simp [lookupStr] at h
  | cons e rest ih =>
    unfold lookupStr at h
    by_cases hc : e.1 = k
    · simp [hc] at h
      cases e
      simp_all
    · simp [hc] at h
      exact List.mem_cons_of_mem _ (ih h)

theorem parentsWf_lt {repo : GitRepo} (h : parentsWf repo = true)
    {c p : Nat} (hp : p ∈ parentsOf repo c) : p < c := by
  unfold parentsOf at hp
  cases hfind : lookupNat repo.parents c with
  | none => rw [hfind] at hp; simp at hp
  | some ps =>
    rw [hfind] at hp
    simp at hp
    have hmem : (c, ps) ∈ repo.parents := lookupNat_mem hfind
    unfold parentsWf at h
    rw [List.all_eq_true] at h
    have := h (c, ps) hmem
    rw [List.all_eq_true] at this
    simpa using this p hp

/-- Ancestry in the commit graph: `Reaches repo x y` holds when `y` is
reachable from `x` by following parent links, including `x = y`.  This is
"y is an ancestor of x, or equal to it". -/
inductive Reaches (repo : GitRepo) : Nat → Nat → Prop where
  | refl (x : Nat) : Reaches repo x x
  | step {x p y : Nat} : p ∈ parentsOf repo x → Reaches repo p y →
      Reaches repo x y

/-- Fuel-bounded search deciding `Reaches`. -/
def reachesFuel (repo : GitRepo) : Nat → Nat → Nat → Bool
  | 0, x, y => x == y
  | fuel + 1, x, y =>
      x == y || (parentsOf repo x).any (fun p => reachesFuel repo fuel p y)

/-- Reachability decision: on a well-formed graph parent ids strictly
decrease, so fuel `x` always suffices starting from `x`. -/
def reachesB (repo : GitRepo) (x y : Nat) : Bool :=
  reachesFuel repo x x y

theorem reachesFuel_sound {repo : GitRepo} :
    ∀ {fuel x y : Nat}, reachesFuel repo fuel x y = true → Reaches repo x y := by
  intro fuel
  induction fuel with
  | zero =>
    intro x y h
    unfold reachesFuel at h
    have hxy : x = y := by simpa using h
    exact hxy ▸ Reaches.refl x
  | succ n ih =>
    intro x y h
    unfold reachesFuel at h
    rw [Bool.or_eq_true] at h
    rcases h with h | h
    · have hxy : x = y := by simpa using h
      exact hxy ▸ Reaches.refl x
    · rw [List.any_eq_true] at h
      obtain ⟨p, hp, hrec⟩ := h
      exact Reaches.step hp (ih hrec)

theorem reachesFuel_complete {repo : GitRepo} (hwf : parentsWf repo = true)
    {x y : Nat} (h : Reaches repo x y) :
    ∀ fuel, x ≤ fuel → reachesFuel repo fuel x y = true := by
  induction h with
  | refl z =>
    intro fuel _
    cases fuel with
    | zero => simp [reachesFuel]
    | succ n => simp [reachesFuel]
  | @step a p b hp _ ih =>
    intro fuel hfuel
    have hlt : p < a := parentsWf_lt hwf hp
    cases fuel with
    | zero => omega
    | succ n =>
      unfold reachesFuel
      rw [Bool.or_eq_true, List.any_eq_true]
      right
      exact ⟨p, hp, ih n (by omega)⟩

theorem reachesB_iff {repo : GitRepo} (hwf : parentsWf repo = true)
    {x y : Nat} : reachesB repo x y = true ↔ Reaches repo x y := by
  constructor
  · exact reachesFuel_sound
  · intro h
    exact reachesFuel_complete hwf h x (Nat.le_refl x)

/-- Modelled contract of libgit2's `git_graph_descendant_of` (exposed by the
`git2` crate as `Repository::graph_descendant_of(commit, ancestor)`):
returns true when `commit` is a descendant of `ancestor`; a commit is not
considered a descendant of itself. -/
def graph_descendant_of (repo : GitRepo) (commit ancestor : Nat) : Bool :=
  !(commit == ancestor) && reachesB repo commit ancestor

/-- Modelled contract of `Repository::find_branch(name, BranchType::Local)`:
resolves a local branch to its record, failing with a NotFound git error. -/
def find_branch (repo : GitRepo) (name : String) : Except Error Nat :=
  match lookupStr repo.branches name with
  | some tip => .ok tip
  | none => .error (.Git .notFound)

/-- Modelled contract of `Reference::peel_to_commit`: a branch tip peels to
its commit when the commit object exists in the object database. -/
def peel_to_commit (repo : GitRepo) (tip : Nat) : Except Error Nat :=
  if tip ∈ repo.commits then .ok tip else .error (.Git .generic)

/-- Embedding of `git-utils-core/src/git.rs` lines 36-44,
`is_branch_merged(repo, branch_name, base_branch)`: resolve and peel the
base branch, then the candidate branch, then ask whether the base commit is
a graph descendant of the branch commit. -/
def is_branch_merged (repo : GitRepo) (branch_name base_branch : String) :
    Except Error Bool := do
  let base_tip ← find_branch repo base_branch
  let base_commit ← peel_to_commit repo base_tip
  let branch_tip ← find_branch repo branch_name
  let branch_commit ← peel_to_commit repo branch_tip
  .ok (graph_descendant_of repo base_commit branch_commit)

/-- `repo.config()` followed by `config.get_string(key)` in the source:
`configOk = false` models the config handle failing to open. -/
def config_get (repo : GitRepo) (key : String) : Option String :=
  if repo.configOk then lookupStr repo.config key else none

/-- The candidate scan in `detect_base_branch`: first name in the list that
`find_branch` resolves, else `BaseBranchNotFound`. -/
def firstExistingBranch (repo : GitRepo) : List String → Except Error String
  | [] => .error .BaseBranchNotFound
  | c :: rest =>
      if (lookupStr repo.branches c).isSome then .ok c
      else firstExistingBranch repo rest

/-- Embedding of `git-utils-core/src/git.rs` lines 47-63,
`detect_base_branch`: a configured `git-branch-delete.base` value is
returned as-is; otherwise the first of `main`, `master`, `develop` that
exists locally; otherwise `BaseBranchNotFound`. -/
def detect_base_branch (repo : GitRepo) : Except Error String :=
  match config_get repo "git-branch-delete.base" with
  | some base => .ok base
  | none => firstExistingBranch repo ["main", "master", "develop"]

/-- The single-quote character, kept out of string literals. -/
def sq : String := String.singleton (Char.ofNat 39)

/-- The error message built by `delete_branch` for an unmerged branch. -/
def notMergedMsg (branch base : String) : String :=
  "Branch " ++ sq ++ branch ++ sq ++ " is not merged into " ++ sq ++ base
    ++ sq ++ ". Use --force to delete anyway."

/-- Effect of `Branch::delete` on the modelled state: the branch record is
removed from the local namespace. -/
def removeBranch (repo : GitRepo) (name : String) : GitRepo :=
  { repo with branches := repo.branches.filter (fun b => !(b.1 == name)) }

/-- Embedding of `git-utils-core/src/git.rs` lines 74-90, `delete_branch`:
find the branch; unless `force`, resolve the base branch and refuse with a
not-merged error when `is_branch_merged` says false; then delete.  The
returned pair is (state after the call, call result); every early error
leaves the state unchanged, mirroring that the Rust function only mutates
in the final `branch.delete()`. -/
def delete_branch (repo : GitRepo) (branch_name : String) (force : Bool) :
    GitRepo × Except Error Unit :=
  match find_branch repo branch_name with
  | .error e => (repo, .error e)
  | .ok _ =>
    if !force then
      match detect_base_branch repo with
      | .error e => (repo, .error e)
      | .ok base_branch =>
        match is_branch_merged repo branch_name base_branch with
        | .error e => (repo, .error e)
        | .ok merged =>
          if !merged then
            (repo, .error (.Other (notMergedMsg branch_name base_branch)))
          else
            (removeBranch repo branch_name, .ok ())
    else
      (removeBranch repo branch_name, .ok ())

/-- The full reference name `refs/remotes/<remote>/<branch>`. -/
def remoteRefName (remote branch_name : String) : String :=
  "refs/remotes/" ++ remote ++ "/" ++ branch_name

/-- Embedding of `git-utils-core/src/git.rs` lines 93-100,
`remote_branch_exists`: look up `refs/remotes/<remote>/<branch>`; a
NotFound error collapses to `Ok(false)`; other errors propagate. -/
def find_reference (repo : GitRepo) (name : String) : Except Error Unit :=
  if name ∈ repo.refs then .ok ()
  else if name ∈ repo.brokenRefs then .error (.Git .generic)
  else .error (.Git .notFound)

def remote_branch_exists (repo : GitRepo) (branch_name remote : String) :
    Except Error Bool :=
  match find_reference repo (remoteRefName remote branch_name) with
  | .ok _ => .ok true
  | .error (.Git .notFound) => .ok false
  | .error e => .error e

/-- Embedding of `delete_remote_branch` (git.rs lines 103-123): runs the
external `git push <remote> --delete <branch>`; `pushFails` models the
branches for which that process exits non-zero, in which case an error with
the captured stderr is returned and no reference is removed. -/
def delete_remote_branch (repo : GitRepo) (branch_name remote : String) :
    GitRepo × Except Error Unit :=
  if branch_name ∈ repo.pushFails then
    (repo, .error (.Other ("Failed to delete remote branch " ++ sq
      ++ branch_name ++ sq)))
  else
    let rn := remoteRefName remote branch_name
    ({ repo with refs := repo.refs.filter (fun r => !(r == rn)) }, .ok ())

/-- `Result::unwrap_or_default` on `Result<bool, Error>`: an error collapses
to `false`. -/
def unwrapOrDefault (r : Except Error Bool) : Bool :=
  match r with
  | .ok b => b
  | .error _ => false

/-- Embedding of `git-branch-delete/src/main.rs` line 45: the candidate set
is all local branches minus the current and the base branch. -/
def candidate_branches (branches : List String) (current base : String) :
    List String :=
  branches.filter (fun b => !(b == current) && !(b == base))

/-- Embedding of `git-branch-delete/src/main.rs` lines 48-50: when neither
`--all` nor `--force` is set, keep only branches whose merge-status query
answers true, any query error collapsing to `false` via
`unwrap_or_default`. -/
def filter_merged (repo : GitRepo) (base : String) (branches : List String) :
    List String :=
  branches.filter (fun b => unwrapOrDefault (is_branch_merged repo b base))

/-- Displayed text of an error (the `{}` rendering used by the
`eprintln!` calls). -/
def errMsg : Error → String
  | .Git _ => "Git error"
  | .NotGitRepository => "Not a git repository"
  | .BranchNotFound n => "Branch not found: " ++ n
  | .BaseBranchNotFound =>
      "Base branch not found. Please configure git-branch-delete.base in .gitconfig"
  | .Io => "IO error"
  | .Other msg => msg

/-- Accumulated state of the delete loop in `git-branch-delete/src/main.rs`
lines 106-141: the evolving repository, the two counters, the lines written
to stdout and stderr, and the branches for which a remote-deletion prompt
was offered. -/
structure LoopState where
  repo : GitRepo
  deleted : Nat := 0
  remoteDeleted : Nat := 0
  stdoutLines : List String := []
  stderrLines : List String := []
  remoteOffers : List String := []
deriving DecidableEq

/-- One iteration of the delete loop (main.rs lines 109-141).  `answer`
models the interactive `Confirm` prompt for remote deletion.  The `?` on
`remote_branch_exists` propagates its error out of `main`, hence the
`Except` result. -/
def delete_loop_step (force remoteFlag : Bool) (answer : String → Bool)
    (st : LoopState) (branch : String) : Except Error LoopState :=
  match delete_branch st.repo branch force with
  | (repo1, .ok _) =>
    let st1 : LoopState :=
      { st with
        repo := repo1
        stdoutLines := st.stdoutLines
          ++ ["Deleted local branch " ++ sq ++ branch ++ sq]
        deleted := st.deleted + 1 }
    if remoteFlag then
      match remote_branch_exists repo1 branch "origin" with
      | .error e => .error e
      | .ok true =>
        let st2 : LoopState :=
          { st1 with remoteOffers := st1.remoteOffers ++ [branch] }
        if answer branch then
          match delete_remote_branch st2.repo branch "origin" with
          | (repo2, .ok _) =>
            .ok { st2 with
                  repo := repo2
                  stdoutLines := st2.stdoutLines
                    ++ ["Deleted remote branch " ++ sq ++ "origin/"
                        ++ branch ++ sq]
                  remoteDeleted := st2.remoteDeleted + 1 }
          | (repo2, .error e) =>
            .ok { st2 with
                  repo := repo2
                  stderrLines := st2.stderrLines
                    ++ ["Failed to delete remote branch " ++ sq ++ "origin/"
                        ++ branch ++ sq ++ ": " ++ errMsg e] }
        else .ok st2
      | .ok false => .ok st1
    else .ok st1
  | (repo1, .error e) =>
    .ok { st with
          repo := repo1
          stderrLines := st.stderrLines
            ++ ["Failed to delete branch " ++ sq ++ branch ++ sq ++ ": "
                ++ errMsg e] }

/-- The delete loop over the selected branches (main.rs lines 109-141). -/
def delete_loop (force remoteFlag : Bool) (answer : String → Bool) :
    LoopState → List String → Except Error LoopState
  | st, [] => .ok st
  | st, b :: rest =>
    match delete_loop_step force remoteFlag answer st b with
    | .error e => .error e
    | .ok st1 => delete_loop force remoteFlag answer st1 rest

/-- Embedding of main.rs lines 143-146: the lines printed after the loop.
The success counter is the only count the final report shows; a remote
count appears only under `--remote` when positive. -/
def final_report (st : LoopState) (remoteFlag : Bool) : List String :=
  ["Deleted " ++ toString st.deleted ++ " local branches"]
    ++ (if remoteFlag && decide (st.remoteDeleted > 0) then
          ["Deleted " ++ toString st.remoteDeleted ++ " remote branches"]
        else [])

/-- Embedding of `git-repo/src/delete.rs` lines 169-175,
`has_uncommitted_changes`: a failing status query (`statuses = none`)
collapses to `false` (no changes). -/
def has_uncommitted_changes (repo : GitRepo) : Bool :=
  match repo.statuses with
  | some statuses => !statuses.isEmpty
  | none => false

/-- Embedding of `git-repo/src/ls.rs` lines 160-166, `is_repo_clean`: a
failing status query collapses to `true` (clean). -/
def is_repo_clean (repo : GitRepo) : Bool :=
  match repo.statuses with
  | some statuses => statuses.isEmpty
  | none => true

/-- Embedding of `git-repo/src/ls.rs` lines 44-50: under `--dirty`, an
entry whose repository opens and reports clean is skipped (`continue`);
an entry that fails to open (`none`) is kept. -/
def ls_keeps_entry (dirty : Bool) (opened : Option GitRepo) : Bool :=
  if dirty then
    match opened with
    | some repo => !(is_repo_clean repo)
    | none => true
  else true

/-- Embedding of the uncommitted-changes safety check in
`git-repo/src/delete.rs` lines 55-67: with `force` unset, the warning and
its blocking confirmation run exactly when `has_uncommitted_changes` is
true. -/
def delete_repo_warns_uncommitted (force : Bool) (repo : GitRepo) : Bool :=
  !force && has_uncommitted_changes repo

/-! ## Repository-tree discovery (`git-repo/src/ls.rs` lines 104-146)

The filesystem is modelled as a finite tree of named nodes.  Paths are
lists of path segments relative to the scan root. -/

/-- A filesystem node: a directory with children, or a plain file. -/
inductive FsNode where
  | dir (name : String) (children : List FsNode)
  | file (name : String)

def FsNode.name : FsNode → String
  | .dir n _ => n
  | .file n => n

def FsNode.isDir : FsNode → Bool
  | .dir _ _ => true
  | .file _ => false

/-- `dir.join(".git").exists()`: some child entry (file or directory) is
named `.git`. -/
def hasGitMarker (children : List FsNode) : Bool :=
  children.any (fun c => c.name == ".git")

/-- Custom induction principle for the nested inductive `FsNode`. -/
theorem FsNode.myInduction (motive : FsNode → Prop)
    (hfile : ∀ n, motive (.file n))
    (hdir : ∀ n children, (∀ c ∈ children, motive c) → motive (.dir n children)) :
    ∀ t, motive t
  | .file n => hfile n
  | .dir n children =>
    hdir n children (fun c hc =>
      have : sizeOf c < sizeOf (FsNode.dir n children) := by
        have h1 := List.sizeOf_lt_of_mem hc
        simp only [FsNode.dir.sizeOf_spec]
        omega
      FsNode.myInduction motive hfile hdir c)
termination_by t => sizeOf t

/-- Embedding of the recursive worker `visit_dirs` in
`git-repo/src/ls.rs` lines 111-142: a non-directory is ignored; a
directory containing the `.git` marker is recorded and not descended into;
otherwise, while `depth < max_depth`, each child directory is visited at
`depth + 1`.  Paths are accumulated relative to the scan root. -/
def visit_dirs : FsNode → List String → Nat → Nat → List (List String)
  | .file _, _, _, _ => []
  | .dir _ children, path, depth, max_depth =>
    if hasGitMarker children then [path]
    else if max_depth ≤ depth then []
    else children.attach.flatMap
      (fun c =>
        if c.1.isDir then
          visit_dirs c.1 (path ++ [c.1.name]) (depth + 1) max_depth
        else [])
termination_by t _ _ _ => sizeOf t
decreasing_by
  have h1 := List.sizeOf_lt_of_mem c.2
  simp only [FsNode.dir.sizeOf_spec]
  omega

/-- Embedding of `find_git_repos` (ls.rs lines 104-146): the walk starts at
the root with depth 0 and `MAX_DEPTH = 3`. -/
def find_git_repos (root : FsNode) : List (List String) :=
  visit_dirs root [] 0 3

/-- First child with the given entry name, modelling path resolution. -/
def childNamed (children : List FsNode) (n : String) : Option FsNode :=
  children.find? (fun c => c.name == n)

/-- Resolve a relative path to the node it denotes, if any. -/
def subtreeAt : FsNode → List String → Option FsNode
  | t, [] => some t
  | .file _, _ :: _ => none
  | .dir _ children, n :: rest =>
    match childNamed children n with
    | some c => subtreeAt c rest
    | none => none

/-- Whether the directory at relative path `q` exists and contains the
repository marker. -/
def markerAtPath (t : FsNode) (q : List String) : Bool :=
  match subtreeAt t q with
  | some (.dir _ children) => hasGitMarker children
  | _ => false

/-- Sibling entry names are pairwise distinct. -/
def namesNodup : List FsNode → Bool
  | [] => true
  | c :: rest => rest.all (fun d => !(d.name == c.name)) && namesNodup rest

/-- A well-formed filesystem tree: at every directory, children have
pairwise-distinct names (as on a real filesystem). -/
def fsWf : FsNode → Bool
  | .file _ => true
  | .dir _ children =>
    namesNodup children && children.attach.all (fun c => fsWf c.1)
termination_by t => sizeOf t
decreasing_by
  have h1 := List.sizeOf_lt_of_mem c.2
  simp only [FsNode.dir.sizeOf_spec]
  omega

/-- `r` is a proper initial segment of the path `q`. -/
def ProperPre (r q : List String) : Prop :=
  ∃ n s, r ++ n :: s = q

/-! ### Correctness of the tree scan -/

theorem fsWf_nodup {n : String} {children : List FsNode}
    (h : fsWf (.dir n children) = true) : namesNodup children = true := by
  unfold fsWf at h
  exact (Bool.and_eq_true _ _ |>.mp h).1

theorem fsWf_child {n : String} {children : List FsNode} {c : FsNode}
    (h : fsWf (.dir n children) = true) (hc : c ∈ children) : fsWf c = true := by
  unfold fsWf at h
  have h2 := (Bool.and_eq_true _ _ |>.mp h).2
  rw [List.all_eq_true] at h2
  exact h2 ⟨c, hc⟩ (List.mem_attach _ _)

theorem childNamed_of_mem {children : List FsNode} {c : FsNode}
    (hnd : namesNodup children = true) (hc : c ∈ children) :
    childNamed children (FsNode.name c) = some c := by
  induction children with
  | nil => simp at hc
  | cons d rest ih =>
    unfold namesNodup at hnd
    rw [Bool.and_eq_true] at hnd
    rcases List.mem_cons.mp hc with hcd | hcr
    · subst hcd
      unfold childNamed
      simp [List.find?]
    · have hne : FsNode.name c ≠ FsNode.name d := by
        have := hnd.1
        rw [List.all_eq_true] at this
        have := this c hcr
        simpa using this
      unfold childNamed at ih ⊢
      rw [List.find?]
      have : (FsNode.name d == FsNode.name c) = false := by
        simp
        exact fun h => hne h.symm
      rw [this]
      exact ih hnd.2 hcr

theorem childNamed_mem {children : List FsNode} {n : String} {c : FsNode}
    (h : childNamed children n = some c) : c ∈ children ∧ FsNode.name c = n := by
  unfold childNamed at h
  refine ⟨List.mem_of_find?_eq_some h, ?_⟩
  have := List.find?_some h
  simpa using this

theorem markerAtPath_cons {nm : String} {children : List FsNode} {c : FsNode}
    {n : String} {rest : List String}
    (h : childNamed children n = some c) :
    markerAtPath (.dir nm children) (n :: rest) = markerAtPath c rest := by
  have hsub : subtreeAt (FsNode.dir nm children) (n :: rest) = subtreeAt c rest := by
    rw [subtreeAt, h]
  unfold markerAtPath
  rw [hsub]

theorem visit_sound :
    ∀ (t : FsNode), fsWf t = true →
    ∀ path depth max_depth p, depth ≤ max_depth →
      p ∈ visit_dirs t path depth max_depth →
      ∃ q, p = path ++ q ∧ depth + q.length ≤ max_depth ∧
        markerAtPath t q = true ∧
        (∀ r, ProperPre r q → markerAtPath t r = false) := by
  intro t
  induction t using FsNode.myInduction with
  | hfile n =>
    intro _ path depth max_depth p _ hp
    simp [visit_dirs] at hp
  | hdir n children ih =>
    intro hwf path depth max_depth p hd hp
    rw [visit_dirs] at hp
    by_cases hm : hasGitMarker children = true
    · rw [if_pos hm] at hp
      simp at hp
      refine ⟨[], by simpa using hp, by simpa using hd, ?_, ?_⟩
      · simp [markerAtPath, subtreeAt, hm]
      · intro r hr
        obtain ⟨a, s, habs⟩ := hr
        simp at habs
    · rw [if_neg hm] at hp
      by_cases hdd : max_depth ≤ depth
      · rw [if_pos hdd] at hp
        simp at hp
      · rw [if_neg hdd] at hp
        rw [List.mem_flatMap] at hp
        obtain ⟨⟨c, hc⟩, _, hpc⟩ := hp
        by_cases hcd : c.isDir = true
        · rw [if_pos hcd] at hpc
          have hwfc : fsWf c = true := fsWf_child hwf hc
          have hrec := ih c hc hwfc (path ++ [c.name]) (depth + 1) max_depth p
            (by omega) hpc
          obtain ⟨q', hpq, hlen, hmark, hclean⟩ := hrec
          have hfind : childNamed children (FsNode.name c) = some c :=
            childNamed_of_mem (fsWf_nodup hwf) hc
          refine ⟨c.name :: q', by simpa using hpq,
            by simp only [List.length_cons]; omega, ?_, ?_⟩
          · rw [markerAtPath_cons hfind]
            exact hmark
          · intro r hr
            obtain ⟨a, s, habs⟩ := hr
            cases r with
            | nil =>
              simp [markerAtPath, subtreeAt]
              simpa using hm
            | cons r0 rtail =>
              simp at habs
              obtain ⟨hr0, htail⟩ := habs
              subst hr0
              rw [markerAtPath_cons hfind]
              exact hclean rtail ⟨a, s, htail⟩
        · rw [if_neg hcd] at hpc
          simp at hpc

theorem visit_complete :
    ∀ (t : FsNode), fsWf t = true →
    ∀ path depth max_depth q, depth + q.length ≤ max_depth →
      markerAtPath t q = true →
      (∀ r, ProperPre r q → markerAtPath t r = false) →
      path ++ q ∈ visit_dirs t path depth max_depth := by
  intro t
  induction t using FsNode.myInduction with
  | hfile n =>
    intro _ path depth max_depth q _ hmark _
    exfalso
    cases q with
    | nil => simp [markerAtPath, subtreeAt] at hmark
    | cons a s => simp [markerAtPath, subtreeAt] at hmark
  | hdir n children ih =>
    intro hwf path depth max_depth q hlen hmark hclean
    cases q with
    | nil =>
      have hm : hasGitMarker children = true := by
        simpa [markerAtPath, subtreeAt] using hmark
      rw [visit_dirs, if_pos hm]
      simp
    | cons q0 qtail =>
      have hnomark : hasGitMarker children = false := by
        have := hclean [] ⟨q0, qtail, rfl⟩
        simpa [markerAtPath, subtreeAt] using this
      have hfind : ∃ c, childNamed children q0 = some c := by
        unfold markerAtPath subtreeAt at hmark
        cases hcf : childNamed children q0 with
        | none => rw [hcf] at hmark; simp at hmark
        | some c => exact ⟨c, rfl⟩
      obtain ⟨c, hfind⟩ := hfind
      have hcmem := (childNamed_mem hfind).1
      have hcname := (childNamed_mem hfind).2
      have hmarkc : markerAtPath c qtail = true := by
        rw [markerAtPath_cons hfind] at hmark
        exact hmark
      have hcdir : c.isDir = true := by
        cases c with
        | dir _ _ => rfl
        | file _ =>
          exfalso
          cases qtail with
          | nil => simp [markerAtPath, subtreeAt] at hmarkc
          | cons a s => simp [markerAtPath, subtreeAt] at hmarkc
      have hcleanc : ∀ r, ProperPre r qtail → markerAtPath c r = false := by
        intro r hr
        obtain ⟨a, s, hras⟩ := hr
        have := hclean (q0 :: r) ⟨a, s, by simp [hras]⟩
        rw [markerAtPath_cons hfind] at this
        exact this
      have hrec := ih c hcmem (fsWf_child hwf hcmem) (path ++ [q0]) (depth + 1)
        max_depth qtail (by simp at hlen; omega) hmarkc hcleanc
      rw [visit_dirs, if_neg (by simp [hnomark]), if_neg (by simp at hlen; omega)]
      rw [List.mem_flatMap]
      refine ⟨⟨c, hcmem⟩, List.mem_attach _ _, ?_⟩
      show path ++ q0 :: qtail ∈
        if c.isDir then visit_dirs c (path ++ [c.name]) (depth + 1) max_depth
        else []
      rw [if_pos hcdir, hcname]
      simpa using hrec

/-! ## URL parsing (`git-repo/src/utils.rs` lines 35-74) -/

instance {e a : Type} [DecidableEq e] [DecidableEq a] : DecidableEq (Except e a)
  | .ok x, .ok y =>
    if h : x = y then .isTrue (by rw [h])
    else .isFalse (by intro hh; cases hh; exact h rfl)
  | .ok _, .error _ => .isFalse (by intro h; cases h)
  | .error _, .ok _ => .isFalse (by intro h; cases h)
  | .error x, .error y =>
    if h : x = y then .isTrue (by rw [h])
    else .isFalse (by intro hh; cases hh; exact h rfl)

/-- Parsed identity of a clone URL (`git-repo/src/utils.rs` `RepoInfo`).
Character lists stand for Rust strings. -/
structure RepoInfo where
  domain : List Char
  user : List Char
  repo : List Char
deriving DecidableEq

/-- Rust `str::split(c)`: split at every occurrence of `c`; adjacent
separators and ends yield empty segments. -/
def splitOnChar (c : Char) : List Char → List (List Char)
  | [] => [[]]
  | a :: rest =>
    if a = c then [] :: splitOnChar c rest
    else
      match splitOnChar c rest with
      | [] => [[a]]
      | s :: ss => (a :: s) :: ss

/-- Rust `str::starts_with(pat)`. -/
def startsWithList : List Char → List Char → Bool
  | [], _ => true
  | _ :: _, [] => false
  | p :: ps, a :: rest => (a == p) && startsWithList ps rest

/-- Rust `str::ends_with(pat)`. -/
def endsWithList (pat s : List Char) : Bool :=
  startsWithList pat.reverse s.reverse

/-- Worker for `trim_start_matches`, with fuel bounded by the input
length. -/
def trimStartAux (pat : List Char) : Nat → List Char → List Char
  | 0, s => s
  | fuel + 1, s =>
    if pat ≠ [] ∧ startsWithList pat s = true then
      trimStartAux pat fuel (s.drop pat.length)
    else s

/-- Rust `str::trim_start_matches(pat)`: repeatedly strip the pattern from
the front. -/
def trimStartList (pat s : List Char) : List Char :=
  trimStartAux pat s.length s

/-- Rust `str::trim_end_matches(pat)`: repeatedly strip the pattern from
the end. -/
def trimEndList (pat s : List Char) : List Char :=
  (trimStartList pat.reverse s.reverse).reverse

/-- Rust `str::trim_start_matches(c)` with a char pattern. -/
def trimStartChar (c : Char) : List Char → List Char
  | [] => []
  | a :: rest => if a = c then trimStartChar c rest else a :: rest

def isAsciiAlpha (c : Char) : Bool :=
  (decide ('a' ≤ c) && decide (c ≤ 'z')) || (decide ('A' ≤ c) && decide (c ≤ 'Z'))

def isSchemeTail (c : Char) : Bool :=
  isAsciiAlpha c || (decide ('0' ≤ c) && decide (c ≤ '9'))
    || c == '+' || c == '-' || c == '.'

/-- Scheme candidate: the text before the first `:`. -/
def schemeOf (s : List Char) : List Char :=
  s.takeWhile (fun c => !(c == ':'))

/-- The input from the first `:` on (empty when there is no `:`). -/
def afterScheme (s : List Char) : List Char :=
  s.drop (schemeOf s).length

/-- A URL scheme is an ASCII letter followed by letters, digits, `+`, `-`
or `.`. -/
def schemeValid : List Char → Bool
  | [] => false
  | c0 :: cs => isAsciiAlpha c0 && cs.all isSchemeTail

/-- The authority: the text up to the next `/`. -/
def authorityOf (r : List Char) : List Char :=
  r.takeWhile (fun c => !(c == '/'))

/-- The host inside an authority: strip `userinfo@` and `:port`. -/
def hostOf (auth : List Char) : List Char :=
  let afterUser :=
    if auth.any (fun ch => ch == '@') then
      (auth.dropWhile (fun ch => !(ch == '@'))).drop 1
    else auth
  afterUser.takeWhile (fun ch => !(ch == ':'))

/-- Modelled from the spec: the external `url` crate's `Url::parse`
restricted to the generic absolute form `scheme://authority/path...`
(§4.5: "host = URL authority"), which is what the non-SSH branch of
`parse_repo_url` consumes.  An input without a valid `scheme://` head is
rejected, as `Url::parse` rejects relative URLs; an empty host is an
error, as `host_str()` returning `None`.  Returns (host, path). -/
def url_parse (s : List Char) : Except String (List Char × List Char) :=
  if schemeValid (schemeOf s) then
    match afterScheme s with
    | ':' :: r2 =>
      if startsWithList ['/', '/'] r2 then
        let auth := authorityOf (r2.drop 2)
        let host := hostOf auth
        let path := (r2.drop 2).drop auth.length
        if host = [] then .error "No host in URL" else .ok (host, path)
      else .error "relative URL without a base"
    | _ => .error "relative URL without a base"
  else .error "relative URL without a base"

/-- Embedding of `git-repo/src/utils.rs` lines 35-74, `parse_repo_url`.
Only URLs starting with the literal `git@` take the SSH branch; everything
else goes through `Url::parse`.  The char-list literals stand for the Rust
string literals `"git@"` and `".git"`. -/
def parse_repo_url (url : List Char) : Except String RepoInfo :=
  if startsWithList ['g', 'i', 't', '@'] url then
    match splitOnChar ':' url with
    | [part0, part1] =>
      let domain := trimStartList ['g', 'i', 't', '@'] part0
      let path := trimEndList ['.', 'g', 'i', 't'] part1
      match splitOnChar '/' path with
      | p0 :: p1 :: _ => .ok ⟨domain, p0, p1⟩
      | _ => .error "Invalid repository path"
    | _ => .error "Invalid SSH URL format"
  else
    match url_parse url with
    | .error e => .error e
    | .ok (host, upath) =>
      let path := trimEndList ['.', 'g', 'i', 't'] (trimStartChar '/' upath)
      match splitOnChar '/' path with
      | p0 :: p1 :: _ => .ok ⟨host, p0, p1⟩
      | _ => .error "Invalid repository path"


/-! ### Lemmas about the string primitives -/

theorem startsWithList_append (p s : List Char) :
    startsWithList p (p ++ s) = true := by
  induction p with
  | nil => rfl
  | cons a ps ih => simp [startsWithList, ih]

theorem startsWithList_iff {p s : List Char} :
    startsWithList p s = true ↔ ∃ t, p ++ t = s := by
  constructor
  · intro h
    induction p generalizing s with
    | nil => exact ⟨s, rfl⟩
    | cons a ps ih =>
      cases s with
      | nil => simp [startsWithList] at h
      | cons b rest =>
        unfold startsWithList at h
        rw [Bool.and_eq_true] at h
        obtain ⟨t, ht⟩ := ih h.2
        have hab : b = a := by simpa using h.1
        exact ⟨t, by simp [hab, ht]⟩
  · rintro ⟨t, rfl⟩
    exact startsWithList_append p t

theorem startsWithList_cons_ne {p a : Char} {ps s : List Char} (h : a ≠ p) :
    startsWithList (p :: ps) (a :: s) = false := by
  unfold startsWithList
  simp [h]

theorem splitOnChar_not_mem {c : Char} {l : List Char} (h : c ∉ l) :
    splitOnChar c l = [l] := by
  induction l with
  | nil => rfl
  | cons a rest ih =>
    have hac : ¬(a = c) := fun hh => h (by simp [hh])
    have hcr : c ∉ rest := fun hh => h (List.mem_cons_of_mem _ hh)
    unfold splitOnChar
    rw [if_neg hac, ih hcr]

theorem splitOnChar_append {c : Char} {a : List Char} (b : List Char)
    (h : c ∉ a) : splitOnChar c (a ++ c :: b) = a :: splitOnChar c b := by
  induction a with
  | nil => simp [splitOnChar]
  | cons x xs ih =>
    have hx : ¬(x = c) := fun hh => h (by simp [hh])
    have hxs : c ∉ xs := fun hh => h (List.mem_cons_of_mem _ hh)
    rw [List.cons_append, splitOnChar, if_neg hx, ih hxs]

theorem trimStartAux_no (pat : List Char) (fuel : Nat) {s : List Char}
    (h : startsWithList pat s = false) : trimStartAux pat fuel s = s := by
  cases fuel with
  | zero => rfl
  | succ n =>
    unfold trimStartAux
    rw [if_neg (by simp [h])]

theorem trimStartList_no {pat s : List Char}
    (h : startsWithList pat s = false) : trimStartList pat s = s :=
  trimStartAux_no pat s.length h

theorem trimStartList_strip {pat s : List Char} (hne : pat ≠ [])
    (h : startsWithList pat s = false) : trimStartList pat (pat ++ s) = s := by
  unfold trimStartList
  obtain ⟨k, hk⟩ : ∃ k, (pat ++ s).length = k + 1 := by
    cases pat with
    | nil => exact absurd rfl hne
    | cons p ps => exact ⟨ps.length + s.length, by simp⟩
  rw [hk]
  unfold trimStartAux
  rw [if_pos ⟨hne, startsWithList_append pat s⟩, List.drop_left]
  exact trimStartAux_no pat k h

theorem trimEndList_strip {pat r : List Char} (hne : pat ≠ [])
    (h : endsWithList pat r = false) : trimEndList pat (r ++ pat) = r := by
  unfold trimEndList
  rw [List.reverse_append]
  rw [trimStartList_strip (by simpa using hne) (by simpa [endsWithList] using h)]
  exact List.reverse_reverse r

theorem trimEndList_no {pat s : List Char} (h : endsWithList pat s = false) :
    trimEndList pat s = s := by
  unfold trimEndList
  rw [trimStartList_no (by simpa [endsWithList] using h), List.reverse_reverse]

theorem pre_append_cases {p t b a : List Char} {c : Char}
    (h : p ++ t = b ++ c :: a) :
    (∃ u, p ++ u = b) ∨ (∃ v, p = b ++ c :: v) := by
  induction b generalizing p with
  | nil =>
    cases p with
    | nil => exact Or.inl ⟨[], rfl⟩
    | cons x xs =>
      simp at h
      exact Or.inr ⟨xs, by simp [h.1]⟩
  | cons y b2 ih =>
    cases p with
    | nil => exact Or.inl ⟨y :: b2, rfl⟩
    | cons x xs =>
      simp at h
      rcases ih h.2 with ⟨u, hu⟩ | ⟨v, hv⟩
      · exact Or.inl ⟨u, by simp [h.1, hu]⟩
      · exact Or.inr ⟨v, by simp [h.1, hv]⟩

theorem endsWithList_sep {pat u r : List Char} {c : Char}
    (hc : c ∉ pat) (h : endsWithList pat r = false) :
    endsWithList pat (u ++ c :: r) = false := by
  by_contra hcon
  rw [Bool.not_eq_false] at hcon
  unfold endsWithList at hcon
  rw [startsWithList_iff] at hcon
  obtain ⟨t, ht⟩ := hcon
  rw [show (u ++ c :: r).reverse = r.reverse ++ c :: u.reverse by simp] at ht
  rcases pre_append_cases ht with ⟨w, hw⟩ | ⟨v, hv⟩
  · have : endsWithList pat r = true := by
      unfold endsWithList
      rw [startsWithList_iff]
      exact ⟨w, hw⟩
    exact Bool.noConfusion (this.symm.trans h)
  · have : c ∈ pat.reverse := by rw [hv]; simp
    exact hc (by simpa using this)

theorem takeWhile_append_stop {p : Char → Bool} {l t : List Char} {c : Char}
    (hall : ∀ x ∈ l, p x = true) (hc : p c = false) :
    (l ++ c :: t).takeWhile p = l := by
  induction l with
  | nil => simp [List.takeWhile_cons, hc]
  | cons a rest ih =>
    have ha : p a = true := hall a (by simp)
    rw [List.cons_append, List.takeWhile_cons, ha,
      ih (fun x hx => hall x (by simp [hx]))]
    simp

theorem takeWhile_all {p : Char → Bool} {l : List Char}
    (hall : ∀ x ∈ l, p x = true) : l.takeWhile p = l := by
  induction l with
  | nil => rfl
  | cons a rest ih =>
    rw [List.takeWhile_cons, hall a (by simp),
      ih (fun x hx => hall x (by simp [hx]))]
    simp

theorem trimStartChar_ne {c a : Char} {s : List Char} (h : a ≠ c) :
    trimStartChar c (a :: s) = a :: s := by
  unfold trimStartChar
  rw [if_neg h]

theorem any_eq_false_of {p : Char → Bool} {l : List Char}
    (h : ∀ x ∈ l, p x = false) : l.any p = false := by
  induction l with
  | nil => rfl
  | cons a rest ih =>
    rw [List.any_cons, h a (by simp), ih (fun x hx => h x (by simp [hx]))]
    rfl

theorem parse_ssh_eval {host u r : List Char}
    (hhost_at : '@' ∉ host) (hhost_colon : ':' ∉ host)
    (hu_colon : ':' ∉ u) (hu_slash : '/' ∉ u)
    (hr_colon : ':' ∉ r) (hr_slash : '/' ∉ r)
    (hr_git : endsWithList ['.', 'g', 'i', 't'] r = false) :
    parse_repo_url ((['g', 'i', 't', '@'] ++ host)
        ++ ':' :: ((u ++ '/' :: r) ++ ['.', 'g', 'i', 't']))
      = .ok ⟨host, u, r⟩ := by
  have h1 : startsWithList ['g', 'i', 't', '@'] ((['g', 'i', 't', '@'] ++ host)
      ++ ':' :: ((u ++ '/' :: r) ++ ['.', 'g', 'i', 't'])) = true := by
    rw [List.append_assoc]
    exact startsWithList_append _ _
  have hA : ':' ∉ ['g', 'i', 't', '@'] ++ host := by
    simp [hhost_colon]
  have hB : ':' ∉ (u ++ '/' :: r) ++ ['.', 'g', 'i', 't'] := by
    simp [hu_colon, hr_colon]
  have h2 : splitOnChar ':' ((['g', 'i', 't', '@'] ++ host)
      ++ ':' :: ((u ++ '/' :: r) ++ ['.', 'g', 'i', 't']))
      = [['g', 'i', 't', '@'] ++ host, (u ++ '/' :: r) ++ ['.', 'g', 'i', 't']] := by
    rw [splitOnChar_append _ hA, splitOnChar_not_mem hB]
  have hsw_host : startsWithList ['g', 'i', 't', '@'] host = false := by
    by_contra hcon
    rw [Bool.not_eq_false, startsWithList_iff] at hcon
    obtain ⟨t, ht⟩ := hcon
    exact hhost_at (by rw [← ht]; simp)
  have h3 : trimStartList ['g', 'i', 't', '@'] (['g', 'i', 't', '@'] ++ host)
      = host :=
    trimStartList_strip (by simp) hsw_host
  have hnogit : endsWithList ['.', 'g', 'i', 't'] (u ++ '/' :: r) = false :=
    endsWithList_sep (by decide) hr_git
  have h4 : trimEndList ['.', 'g', 'i', 't'] ((u ++ '/' :: r) ++ ['.', 'g', 'i', 't'])
      = u ++ '/' :: r :=
    trimEndList_strip (by simp) hnogit
  have h5 : splitOnChar '/' (u ++ '/' :: r) = [u, r] := by
    rw [splitOnChar_append _ hu_slash, splitOnChar_not_mem hr_slash]
  simp only [parse_repo_url, h1, if_true, h2, h3, h4, h5]

theorem url_parse_https_eval {host tail : List Char}
    (hslash : '/' ∉ host) (hat : '@' ∉ host) (hcolon : ':' ∉ host)
    (hne : host ≠ []) :
    url_parse ('h' :: 't' :: 't' :: 'p' :: 's' :: ':' :: '/' :: '/'
        :: (host ++ '/' :: tail))
      = .ok (host, '/' :: tail) := by
  have hscheme : schemeOf ('h' :: 't' :: 't' :: 'p' :: 's' :: ':' :: '/' :: '/'
      :: (host ++ '/' :: tail)) = ['h', 't', 't', 'p', 's'] := by
    simp [schemeOf, List.takeWhile]
  have hafter : afterScheme ('h' :: 't' :: 't' :: 'p' :: 's' :: ':' :: '/' :: '/'
      :: (host ++ '/' :: tail)) = ':' :: '/' :: '/' :: (host ++ '/' :: tail) := by
    rw [afterScheme, hscheme]
    simp
  have hauth : authorityOf (host ++ '/' :: tail) = host := by
    unfold authorityOf
    refine takeWhile_append_stop ?_ (by simp)
    intro x hx
    simp
    intro hxe
    exact hslash (hxe ▸ hx)
  have hhost : hostOf host = host := by
    unfold hostOf
    rw [any_eq_false_of (fun x hx => by
      simp
      intro hxe
      exact hat (hxe ▸ hx))]
    simp only [Bool.false_eq_true, if_false]
    refine takeWhile_all ?_
    intro x hx
    simp
    intro hxe
    exact hcolon (hxe ▸ hx)
  have hdrop : (host ++ '/' :: tail).drop host.length = '/' :: tail :=
    List.drop_left host ('/' :: tail)
  simp only [url_parse, hscheme, hafter]
  rw [if_pos (by decide)]
  simp only [startsWithList, Bool.and_true, List.drop_succ_cons, List.drop_zero]
  rw [if_pos (by decide)]
  simp only [hauth, hhost, hdrop]
  rw [if_neg hne]

theorem parse_https_eval {host u0 r : List Char} {u0h : Char} {u : List Char}
    (hu : u = u0h :: u0)
    (hhost_at : '@' ∉ host) (hhost_colon : ':' ∉ host) (hhost_slash : '/' ∉ host)
    (hhost_ne : host ≠ [])
    (hu_slash : '/' ∉ u)
    (hr_slash : '/' ∉ r)
    (hr_git : endsWithList ['.', 'g', 'i', 't'] r = false) :
    parse_repo_url ('h' :: 't' :: 't' :: 'p' :: 's' :: ':' :: '/' :: '/'
        :: (host ++ '/' :: ((u ++ '/' :: r) ++ ['.', 'g', 'i', 't'])))
      = .ok ⟨host, u, r⟩ := by
  have hssh : startsWithList ['g', 'i', 't', '@'] ('h' :: 't' :: 't' :: 'p' :: 's'
      :: ':' :: '/' :: '/' :: (host ++ '/' :: ((u ++ '/' :: r) ++ ['.', 'g', 'i', 't'])))
      = false := startsWithList_cons_ne (by decide)
  have hurl := @url_parse_https_eval host ((u ++ '/' :: r) ++ ['.', 'g', 'i', 't'])
    hhost_slash hhost_at hhost_colon hhost_ne
  have htrim : trimStartChar '/' ('/' :: ((u ++ '/' :: r) ++ ['.', 'g', 'i', 't']))
      = (u ++ '/' :: r) ++ ['.', 'g', 'i', 't'] := by
    rw [trimStartChar]
    rw [if_pos rfl]
    subst hu
    rw [List.cons_append, List.cons_append]
    refine trimStartChar_ne ?_
    intro hh
    exact hu_slash (by simp [hh])
  have hnogit : endsWithList ['.', 'g', 'i', 't'] (u ++ '/' :: r) = false :=
    endsWithList_sep (by decide) hr_git
  have h4 : trimEndList ['.', 'g', 'i', 't'] ((u ++ '/' :: r) ++ ['.', 'g', 'i', 't'])
      = u ++ '/' :: r :=
    trimEndList_strip (by simp) hnogit
  have h5 : splitOnChar '/' (u ++ '/' :: r) = [u, r] := by
    rw [splitOnChar_append _ hu_slash, splitOnChar_not_mem hr_slash]
  simp only [parse_repo_url, hssh, Bool.false_eq_true, if_false, hurl, htrim, h4, h5]

/-! ## Rename-on-collision (`git-repo/src/clone.rs` lines 121-173) -/

/-- Fuel-driven base-10 digit extraction (least significant first);
`fuel ≥ n` makes it total. -/
def decDigitsAux : Nat → Nat → List Nat
  | 0, _ => []
  | fuel + 1, n => if n = 0 then [] else n % 10 :: decDigitsAux fuel (n / 10)

/-- Decimal rendering of a natural number, as Rust's `{}` formatting of an
integer produces. -/
def natToDec (n : Nat) : String :=
  if n = 0 then "0"
  else ⟨((decDigitsAux n n).reverse).map (fun d => Char.ofNat (48 + d))⟩

theorem decDigitsAux_eq_digits :
    ∀ fuel n, n ≤ fuel → decDigitsAux fuel n = Nat.digits 10 n := by
  intro fuel
  induction fuel with
  | zero =>
    intro n hn
    interval_cases n
    simp [decDigitsAux]
  | succ f ih =>
    intro n hn
    by_cases h0 : n = 0
    · subst h0; simp [decDigitsAux]
    · unfold decDigitsAux
      rw [if_neg h0]
      rw [Nat.digits_def' (by norm_num) (Nat.pos_of_ne_zero h0)]
      rw [ih (n / 10) (by omega)]

theorem decDigitsAux_lt (fuel n : Nat) : ∀ d ∈ decDigitsAux fuel n, d < 10 := by
  induction fuel generalizing n with
  | zero => intro d hd; simp [decDigitsAux] at hd
  | succ f ih =>
    intro d hd
    unfold decDigitsAux at hd
    by_cases h0 : n = 0
    · simp [h0] at hd
    · rw [if_neg h0] at hd
      rcases List.mem_cons.mp hd with h | h
      · subst h; omega
      · exact ih _ d h

theorem digit_char_recover {d : Nat} (h : d < 10) :
    (Char.ofNat (48 + d)).toNat - 48 = d := by
  interval_cases d <;> rfl

theorem digit_map_recover {l : List Nat} (hl : ∀ d ∈ l, d < 10) :
    (l.map (fun d => Char.ofNat (48 + d))).map (fun c => c.toNat - 48) = l := by
  rw [List.map_map]
  have : l.map ((fun c : Char => c.toNat - 48) ∘ fun d => Char.ofNat (48 + d))
      = l.map id :=
    List.map_congr_left (fun d hd => digit_char_recover (hl d hd))
  rw [this, List.map_id]

theorem natToDec_inj : Function.Injective natToDec := by
  intro m n h
  unfold natToDec at h
  by_cases hm : m = 0 <;> by_cases hn : n = 0
  · omega
  · exfalso
    rw [if_pos hm, if_neg hn] at h
    have hdata : ("0" : String).data
        = ((decDigitsAux n n).reverse).map (fun d => Char.ofNat (48 + d)) :=
      congrArg String.data h
    have hlt : ∀ d ∈ (decDigitsAux n n).reverse, d < 10 :=
      fun d hd => decDigitsAux_lt n n d (List.mem_reverse.mp hd)
    have hrec := digit_map_recover hlt
    rw [← hdata] at hrec
    have hsing : (decDigitsAux n n).reverse = [0] := by
      rw [← hrec]; rfl
    have hdig : Nat.digits 10 n = [0] := by
      have := congrArg List.reverse hsing
      rw [List.reverse_reverse] at this
      rw [← decDigitsAux_eq_digits n n (Nat.le_refl n), this]
      rfl
    have := Nat.ofDigits_digits 10 n
    rw [hdig] at this
    simp [Nat.ofDigits] at this
    exact hn this.symm
  · exfalso
    rw [if_neg hm, if_pos hn] at h
    have hdata : ((decDigitsAux m m).reverse).map (fun d => Char.ofNat (48 + d))
        = ("0" : String).data :=
      congrArg String.data h
    have hlt : ∀ d ∈ (decDigitsAux m m).reverse, d < 10 :=
      fun d hd => decDigitsAux_lt m m d (List.mem_reverse.mp hd)
    have hrec := digit_map_recover hlt
    rw [hdata] at hrec
    have hsing : (decDigitsAux m m).reverse = [0] := by
      rw [← hrec]; rfl
    have hdig : Nat.digits 10 m = [0] := by
      have := congrArg List.reverse hsing
      rw [List.reverse_reverse] at this
      rw [← decDigitsAux_eq_digits m m (Nat.le_refl m), this]
      rfl
    have := Nat.ofDigits_digits 10 m
    rw [hdig] at this
    simp [Nat.ofDigits] at this
    exact hm this.symm
  · rw [if_neg hm, if_neg hn] at h
    have hdata := congrArg String.data h
    simp only at hdata
    have hltm : ∀ d ∈ (decDigitsAux m m).reverse, d < 10 :=
      fun d hd => decDigitsAux_lt m m d (List.mem_reverse.mp hd)
    have hltn : ∀ d ∈ (decDigitsAux n n).reverse, d < 10 :=
      fun d hd => decDigitsAux_lt n n d (List.mem_reverse.mp hd)
    have hrevm := digit_map_recover hltm
    have hrevn := digit_map_recover hltn
    have : (decDigitsAux m m).reverse = (decDigitsAux n n).reverse := by
      rw [← hrevm, ← hrevn, hdata]
    have hdig : Nat.digits 10 m = Nat.digits 10 n := by
      have h2 := congrArg List.reverse this
      rw [List.reverse_reverse, List.reverse_reverse] at h2
      rw [← decDigitsAux_eq_digits m m (Nat.le_refl m),
        ← decDigitsAux_eq_digits n n (Nat.le_refl n), h2]
    have := congrArg (Nat.ofDigits 10) hdig
    rwa [Nat.ofDigits_digits, Nat.ofDigits_digits] at this

/-- The candidate directory name `format!("{}-{}", repo, suffix)`. -/
def renameName (repo : String) (suffix : Nat) : String :=
  repo ++ "-" ++ natToDec suffix

theorem renameName_inj (repo : String) {a b : Nat}
    (h : renameName repo a = renameName repo b) : a = b := by
  unfold renameName at h
  have hdata := congrArg String.data h
  have e1 : (repo ++ "-" ++ natToDec a).data
      = (repo.data ++ "-".data) ++ (natToDec a).data := rfl
  have e2 : (repo ++ "-" ++ natToDec b).data
      = (repo.data ++ "-".data) ++ (natToDec b).data := rfl
  rw [e1, e2] at hdata
  have := List.append_cancel_left hdata
  exact natToDec_inj (by cases hna : natToDec a; cases hnb : natToDec b; simp_all)

/-- The suffix-search loop in `clone_with_renamed_dir` (clone.rs lines
129-141): starting at 2, increment while `root/domain/user/repo-suffix`
exists.  `taken` is the finite set of existing paths, `base` the parent
path `root/domain/user`; the fuel `taken.length + 1` is enough to reach a
free name. -/
def rename_target_aux (taken : List (List String)) (base : List String)
    (repo : String) : Nat → Nat → Nat
  | 0, suffix => suffix
  | fuel + 1, suffix =>
    if (base ++ [renameName repo suffix]) ∈ taken then
      rename_target_aux taken base repo fuel (suffix + 1)
    else suffix

def rename_suffix (taken : List (List String)) (base : List String)
    (repo : String) : Nat :=
  rename_target_aux taken base repo (taken.length + 1) 2

/-- The clone target chosen by `clone_with_renamed_dir`. -/
def find_rename_path (taken : List (List String)) (base : List String)
    (repo : String) : List String :=
  base ++ [renameName repo (rename_suffix taken base repo)]

theorem rename_target_aux_spec (taken : List (List String))
    (base : List String) (repo : String) :
    ∀ fuel s, (∃ k, k < fuel ∧ (base ++ [renameName repo (s + k)]) ∉ taken) →
      s ≤ rename_target_aux taken base repo fuel s ∧
      (base ++ [renameName repo (rename_target_aux taken base repo fuel s)]) ∉ taken ∧
      ∀ m, s ≤ m → m < rename_target_aux taken base repo fuel s →
        (base ++ [renameName repo m]) ∈ taken := by
  intro fuel
  induction fuel with
  | zero =>
    intro s hex
    obtain ⟨k, hk, _⟩ := hex
    omega
  | succ f ih =>
    intro s hex
    by_cases hmem : (base ++ [renameName repo s]) ∈ taken
    · have hex2 : ∃ k, k < f ∧ (base ++ [renameName repo (s + 1 + k)]) ∉ taken := by
        obtain ⟨k, hk, hfree⟩ := hex
        cases k with
        | zero => exact absurd hmem (by simpa using hfree)
        | succ k2 =>
          exact ⟨k2, by omega, by
            have : s + 1 + k2 = s + (k2 + 1) := by omega
            rw [this]; exact hfree⟩
      have hstep : rename_target_aux taken base repo (f + 1) s
          = if (base ++ [renameName repo s]) ∈ taken then
              rename_target_aux taken base repo f (s + 1)
            else s := rfl
      have hres : rename_target_aux taken base repo (f + 1) s
          = rename_target_aux taken base repo f (s + 1) := by
        rw [hstep, if_pos hmem]
      obtain ⟨hle, hfree, hall⟩ := ih (s + 1) hex2
      rw [hres]
      refine ⟨by omega, hfree, ?_⟩
      intro m hm1 hm2
      by_cases hms : m = s
      · subst hms; exact hmem
      · exact hall m (by omega) hm2
    · have hstep : rename_target_aux taken base repo (f + 1) s
          = if (base ++ [renameName repo s]) ∈ taken then
              rename_target_aux taken base repo f (s + 1)
            else s := rfl
      have hres : rename_target_aux taken base repo (f + 1) s = s := by
        rw [hstep, if_neg hmem]
      rw [hres]
      exact ⟨Nat.le_refl s, hmem, fun m h1 h2 => absurd (by omega : s < s)
        (by omega)⟩

theorem exists_free_suffix (taken : List (List String)) (base : List String)
    (repo : String) :
    ∃ k, k < taken.length + 1 ∧ (base ++ [renameName repo (2 + k)]) ∉ taken := by
  by_contra hcon
  push_neg at hcon
  have hinj : Function.Injective (fun k : Nat => base ++ [renameName repo (2 + k)]) := by
    intro a b hab
    simp only [List.append_cancel_left_eq, List.cons.injEq] at hab
    have := renameName_inj repo hab.1
    omega
  have hsub : (Finset.range (taken.length + 1)).image
      (fun k => base ++ [renameName repo (2 + k)]) ⊆ taken.toFinset := by
    intro x hx
    rw [Finset.mem_image] at hx
    obtain ⟨k, hk, rfl⟩ := hx
    rw [List.mem_toFinset]
    exact hcon k (Finset.mem_range.mp hk)
  have hcard := Finset.card_le_card hsub
  rw [Finset.card_image_of_injective _ hinj, Finset.card_range] at hcard
  have hlen := List.toFinset_card_le taken
  omega

theorem rename_suffix_spec (taken : List (List String)) (base : List String)
    (repo : String) :
    2 ≤ rename_suffix taken base repo ∧
    (base ++ [renameName repo (rename_suffix taken base repo)]) ∉ taken ∧
    ∀ m, 2 ≤ m → m < rename_suffix taken base repo →
      (base ++ [renameName repo m]) ∈ taken := by
  obtain ⟨k, hk, hfree⟩ := exists_free_suffix taken base repo
  exact rename_target_aux_spec taken base repo (taken.length + 1) 2
    ⟨k, hk, hfree⟩


/-- Filesystem effects a clone-path operation can issue, the vocabulary of
`clone_repo` / `clone_with_renamed_dir` (create parent dirs, clone into a
target, and — only on the Replace branch of `clone_repo` — recursive
removal). -/
inductive CloneAction where
  | createDirAll (path : List String)
  | cloneInto (path : List String)
  | removeDirAll (path : List String)
deriving DecidableEq

/-- Embedding of `clone_with_renamed_dir` (clone.rs lines 121-173): pick
the first free suffixed target, create its parent directories and clone
into it.  Returns the chosen target and the filesystem actions issued; the
function never removes anything. -/
def clone_with_renamed_dir (taken : List (List String)) (base : List String)
    (repo : String) : List String × List CloneAction :=
  let target := find_rename_path taken base repo
  (target, [.createDirAll base, .cloneInto target])


/-! ## Claim theorems -/

/-- Concrete repository for C1: commit 0 is the parent of commit 1; branch
`A` points at 0, branch `B` at 1. -/
def repoC1 : GitRepo :=
  { commits := [0, 1], parents := [(1, [0])], branches := [("A", 0), ("B", 1)] }

/-- C1 counterexample: `A`'s tip (0) is a proper graph ancestor of `B`'s
tip (1), so the claim demands `isMerged(B, A) = true`; the code answers
`Ok(false)`, because `is_branch_merged` passes the base tip as the
`commit` argument and the branch tip as the `ancestor` argument of
`graph_descendant_of`, i.e. it tests the reverse direction. -/
theorem C1_counterexample :
    parentsWf repoC1 = true ∧ Reaches repoC1 1 0 ∧
    is_branch_merged repoC1 "B" "A" = .ok false := by
  refine ⟨by decide, ?_, by decide⟩
  exact Reaches.step (by decide) (Reaches.refl 0)

/-- C1 (amended): on a well-formed commit graph, when both branches
resolve and peel, `isMerged(branch, base)` returns without error, and
returns true exactly when the tip of `branch` is a proper graph ancestor
of the tip of `base` (the direction opposite to the claim; identical tips
yield false). -/
theorem C1_is_branch_merged (repo : GitRepo) (hwf : parentsWf repo = true)
    (branch base : String) (tb tbase : Nat)
    (hb : find_branch repo branch = .ok tb)
    (hbase : find_branch repo base = .ok tbase)
    (hcb : tb ∈ repo.commits) (hcbase : tbase ∈ repo.commits) :
    (∃ v, is_branch_merged repo branch base = .ok v) ∧
    (is_branch_merged repo branch base = .ok true ↔
      tbase ≠ tb ∧ Reaches repo tbase tb) := by
  have hrun : is_branch_merged repo branch base
      = .ok (graph_descendant_of repo tbase tb) := by
    unfold is_branch_merged
    rw [hbase]
    show (peel_to_commit repo tbase).bind _ = _
    unfold peel_to_commit
    rw [if_pos hcbase]
    show (find_branch repo branch).bind _ = _
    rw [hb]
    show (peel_to_commit repo tb).bind _ = _
    unfold peel_to_commit
    rw [if_pos hcb]
    rfl
  refine ⟨⟨_, hrun⟩, ?_⟩
  rw [hrun]
  unfold graph_descendant_of
  constructor
  · intro h
    have hv : (!(tbase == tb) && reachesB repo tbase tb) = true := by
      injection h
    rw [Bool.and_eq_true] at hv
    refine ⟨by simpa using hv.1, (reachesB_iff hwf).mp hv.2⟩
  · intro ⟨hne, hre⟩
    have h1 : (!(tbase == tb)) = true := by simpa using hne
    have h2 : reachesB repo tbase tb = true := (reachesB_iff hwf).mpr hre
    rw [h1, h2]
    rfl

/-- C1 witness: in `repoC1`, branch `A` (tip 0, a proper ancestor of
`B`'s tip 1) is reported merged into base `B`. -/
theorem C1_witness :
    (∃ v, is_branch_merged repoC1 "A" "B" = .ok v) ∧
    (is_branch_merged repoC1 "A" "B" = .ok true ↔
      (1 : Nat) ≠ 0 ∧ Reaches repoC1 1 0) :=
  C1_is_branch_merged repoC1 (by decide) "A" "B" 0 1 (by decide) (by decide)
    (by decide) (by decide)

/-- Behaviour of the candidate scan of `detect_base_branch` on an
arbitrary candidate list. -/
theorem firstExistingBranch_spec (repo : GitRepo) : ∀ cands : List String,
    (firstExistingBranch repo cands = .error .BaseBranchNotFound ↔
      ∀ c ∈ cands, lookupStr repo.branches c = none) ∧
    (∀ b, firstExistingBranch repo cands = .ok b ↔
      ∃ pre suf, cands = pre ++ b :: suf ∧
        (∀ c ∈ pre, lookupStr repo.branches c = none) ∧
        (lookupStr repo.branches b).isSome = true) := by
  intro cands
  induction cands with
  | nil =>
    refine ⟨by simp [firstExistingBranch], ?_⟩
    intro b
    constructor
    · intro h
      simp [firstExistingBranch] at h
    · rintro ⟨pre, suf, habs, -, -⟩
      exact absurd habs (by simp)
  | cons c rest ih =>
    by_cases hc : (lookupStr repo.branches c).isSome = true
    · have hrun : firstExistingBranch repo (c :: rest) = .ok c := by
        unfold firstExistingBranch
        rw [if_pos hc]
      refine ⟨?_, ?_⟩
      · rw [hrun]
        constructor
        · intro h; cases h
        · intro h
          have := h c (by simp)
          rw [this] at hc
          simp at hc
      · intro b
        rw [hrun]
        constructor
        · intro h
          have hb : b = c := by injection h with h2; exact h2.symm
          subst hb
          exact ⟨[], rest, rfl, by simp, hc⟩
        · rintro ⟨pre, suf, hsplit, hpre, hb⟩
          cases pre with
          | nil =>
            simp at hsplit
            simp [hsplit.1]
          | cons p0 ps =>
            simp at hsplit
            have := hpre p0 (by simp)
            rw [← hsplit.1] at this
            rw [this] at hc
            simp at hc
    · have hstep : firstExistingBranch repo (c :: rest)
          = if (lookupStr repo.branches c).isSome = true then .ok c
            else firstExistingBranch repo rest := rfl
      have hrun : firstExistingBranch repo (c :: rest)
          = firstExistingBranch repo rest := by
        rw [hstep, if_neg hc]
      have hcnone : lookupStr repo.branches c = none := by
        cases h : lookupStr repo.branches c with
        | none => rfl
        | some v => rw [h] at hc; simp at hc
      refine ⟨?_, ?_⟩
      · rw [hrun, ih.1]
        constructor
        · intro h d hd
          rcases List.mem_cons.mp hd with hdc | hdr
          · rw [hdc]; exact hcnone
          · exact h d hdr
        · intro h d hd
          exact h d (by simp [hd])
      · intro b
        rw [hrun, ih.2 b]
        constructor
        · rintro ⟨pre, suf, hsplit, hpre, hb⟩
          refine ⟨c :: pre, suf, by simp [hsplit], ?_, hb⟩
          intro d hd
          rcases List.mem_cons.mp hd with hdc | hdp
          · rw [hdc]; exact hcnone
          · exact hpre d hdp
        · rintro ⟨pre, suf, hsplit, hpre, hb⟩
          cases pre with
          | nil =>
            simp at hsplit
            exfalso
            rw [← hsplit.1] at hb
            rw [hcnone] at hb
            simp at hb
          | cons p0 ps =>
            simp at hsplit
            exact ⟨ps, suf, hsplit.2, fun d hd => hpre d (by simp [hd]), hb⟩

/-- Concrete repository for the C3 counterexample: the key
`git-branch-delete.base` is configured as `trunk`, but no branch named
`trunk` (indeed no branch at all) exists. -/
def repoC3 : GitRepo :=
  { commits := [], parents := [], branches := [],
    config := [("git-branch-delete.base", "trunk")] }

/-- C3 counterexample: resolution succeeds with the configured name even
though that branch does not exist locally, contradicting the claim that
"the branch it resolves must exist locally or resolution fails". -/
theorem C3_counterexample :
    detect_base_branch repoC3 = .ok "trunk" ∧
    find_branch repoC3 "trunk" = .error (.Git .notFound) := by
  constructor <;> rfl

/-- C3 (amended): a configured `git-branch-delete.base` value is returned
as-is, with no local-existence check; only when nothing is configured does
resolution fall back to the first existing candidate of `main`, `master`,
`develop`, failing with `BaseBranchNotFound` exactly when none of the
three exists. -/
theorem C3_detect_base_branch (repo : GitRepo) :
    (∀ base, config_get repo "git-branch-delete.base" = some base →
      detect_base_branch repo = .ok base) ∧
    (config_get repo "git-branch-delete.base" = none →
      (detect_base_branch repo = .error .BaseBranchNotFound ↔
        ∀ c ∈ ["main", "master", "develop"],
          lookupStr repo.branches c = none) ∧
      (∀ b, detect_base_branch repo = .ok b ↔
        ∃ pre suf, ["main", "master", "develop"] = pre ++ b :: suf ∧
          (∀ c ∈ pre, lookupStr repo.branches c = none) ∧
          (lookupStr repo.branches b).isSome = true)) := by
  constructor
  · intro base h
    unfold detect_base_branch
    rw [h]
  · intro h
    unfold detect_base_branch
    rw [h]
    exact firstExistingBranch_spec repo ["main", "master", "develop"]

/-- Concrete repository for the C3 witness: no configuration, only
`master` exists. -/
def repoC3w : GitRepo :=
  { commits := [0], parents := [], branches := [("master", 0)] }

/-- C3 witness: with nothing configured and only `master` present,
resolution picks `master` (skipping the missing `main`). -/
theorem C3_witness : detect_base_branch repoC3w = .ok "master" :=
  ((C3_detect_base_branch repoC3w).2 rfl).2 "master" |>.mpr
    ⟨["main"], ["develop"], rfl, by decide, rfl⟩


/-- C2: on a well-formed tree, the scan (i) returns exactly the marker
directories reachable within depth 3 whose proper ancestors are
marker-free, and (ii) never returns an entry that lies strictly below
another returned entry. -/
theorem C2_find_git_repos (t : FsNode) (hwf : fsWf t = true) :
    (∀ p ∈ find_git_repos t, markerAtPath t p = true ∧ p.length ≤ 3) ∧
    (∀ p, markerAtPath t p = true → p.length ≤ 3 →
      (∀ r, ProperPre r p → markerAtPath t r = false) →
      p ∈ find_git_repos t) ∧
    (∀ p q, p ∈ find_git_repos t → q ∈ find_git_repos t → ¬ ProperPre p q) := by
  refine ⟨?_, ?_, ?_⟩
  · intro p hp
    obtain ⟨q, hpq, hlen, hmark, -⟩ :=
      visit_sound t hwf [] 0 3 p (by omega) hp
    simp at hpq
    subst hpq
    exact ⟨hmark, by omega⟩
  · intro p hmark hlen hclean
    have := visit_complete t hwf [] 0 3 p (by omega) hmark hclean
    simpa using this
  · intro p q hp hq hpre
    obtain ⟨p1, hp1, -, hmarkp, -⟩ :=
      visit_sound t hwf [] 0 3 p (by omega) hp
    obtain ⟨q1, hq1, -, -, hcleanq⟩ :=
      visit_sound t hwf [] 0 3 q (by omega) hq
    simp at hp1 hq1
    subst hp1
    subst hq1
    have := hcleanq p hpre
    rw [hmarkp] at this
    exact Bool.noConfusion this

/-- The fixed tree from the claim: `root/a` and `root/a/sub` both contain
the `.git` marker. -/
def exTreeC2 : FsNode :=
  .dir "root" [.dir "a" [.dir ".git" [], .dir "sub" [.dir ".git" []]]]

/-- C2 witness: on the claim's example tree only `root/a` is returned, and
the scan's guarantees hold for it. -/
theorem C2_witness :
    find_git_repos exTreeC2 = [["a"]] ∧
    (∀ p ∈ find_git_repos exTreeC2,
      markerAtPath exTreeC2 p = true ∧ p.length ≤ 3) ∧
    (∀ p q, p ∈ find_git_repos exTreeC2 → q ∈ find_git_repos exTreeC2 →
      ¬ ProperPre p q) :=
  ⟨by simp [find_git_repos, exTreeC2, visit_dirs, hasGitMarker, FsNode.name,
      FsNode.isDir, List.attach, List.attachWith],
   (C2_find_git_repos exTreeC2 (by simp [exTreeC2, fsWf, namesNodup,
      FsNode.name, List.attach, List.attachWith])).1,
   (C2_find_git_repos exTreeC2 (by simp [exTreeC2, fsWf, namesNodup,
      FsNode.name, List.attach, List.attachWith])).2.2⟩

/-- C4: with `force` unset, `delete_branch` on a branch that resolves but
is not merged into the resolved base fails with the not-merged error and
leaves the repository unchanged; with `force` set it performs no merge
check and deletes the branch. -/
theorem C4_delete_branch (repo : GitRepo) (branch : String) :
    (∀ tip base, find_branch repo branch = .ok tip →
      detect_base_branch repo = .ok base →
      is_branch_merged repo branch base = .ok false →
      delete_branch repo branch false
        = (repo, .error (.Other (notMergedMsg branch base)))) ∧
    (∀ tip, find_branch repo branch = .ok tip →
      delete_branch repo branch true = (removeBranch repo branch, .ok ())) := by
  constructor
  · intro tip base hfind hbase hmerged
    simp only [delete_branch, hfind, hbase, hmerged, Bool.not_false, if_true]
  · intro tip hfind
    simp only [delete_branch, hfind, Bool.not_true, Bool.false_eq_true,
      if_false]

/-- Concrete repository for the C4 witness: `x` and `main` have unrelated
tips, so `x` is not merged. -/
def repoC4 : GitRepo :=
  { commits := [0, 2], parents := [], branches := [("main", 0), ("x", 2)] }

/-- C4 witness: non-force deletion of the unmerged `x` fails and changes
nothing; forced deletion removes it. -/
theorem C4_witness :
    delete_branch repoC4 "x" false
      = (repoC4, .error (.Other (notMergedMsg "x" "main"))) ∧
    delete_branch repoC4 "x" true = (removeBranch repoC4 "x", .ok ()) :=
  ⟨(C4_delete_branch repoC4 "x").1 2 "main" rfl rfl rfl,
   (C4_delete_branch repoC4 "x").2 2 rfl⟩

/-- C5: in the merged filter of the branch-delete flow, a branch whose
merge-status query errors is excluded from the candidate set, and every
branch that survives the filter had its query succeed with `true` — no
query error escapes the filter. -/
theorem C5_filter_merged (repo : GitRepo) (base : String)
    (branches : List String) :
    (∀ b ∈ branches, (∃ e, is_branch_merged repo b base = .error e) →
      b ∉ filter_merged repo base branches) ∧
    (∀ b ∈ filter_merged repo base branches,
      is_branch_merged repo b base = .ok true) := by
  constructor
  · intro b _ ⟨e, he⟩ hmem
    rw [filter_merged, List.mem_filter] at hmem
    rw [he] at hmem
    simp [unwrapOrDefault] at hmem
  · intro b hb
    rw [filter_merged, List.mem_filter] at hb
    cases hq : is_branch_merged repo b base with
    | ok v =>
      rw [hq] at hb
      cases v with
      | true => rfl
      | false => simp [unwrapOrDefault] at hb
    | error e =>
      rw [hq] at hb
      simp [unwrapOrDefault] at hb

/-- Concrete repository for the C5 witness: the configured base `trunk`
does not exist, so every merge-status query errors. -/
def repoC5 : GitRepo :=
  { commits := [0], parents := [], branches := [("x", 0)],
    config := [("git-branch-delete.base", "trunk")] }

/-- C5 witness: with base `trunk` missing, the query for `x` errors and
`x` is excluded from the candidate set. -/
theorem C5_witness : "x" ∉ filter_merged repoC5 "trunk" ["x"] :=
  (C5_filter_merged repoC5 "trunk" ["x"]).1 "x" (by decide)
    ⟨.Git .notFound, rfl⟩

/-- Concrete repository for C8: `x`'s tip is a proper ancestor of `main`'s
(so `x` deletes), `y` is unrelated (so non-force deletion of `y` fails). -/
def repoC8 : GitRepo :=
  { commits := [0, 1, 2], parents := [(1, [0])],
    branches := [("main", 1), ("x", 0), ("y", 2)] }

/-- C8 counterexample: over candidates `[x, y]` where `x` deletes and
`y` fails, the loop succeeds with 1 deletion counted and one stderr
failure line, but the complete final report is the single line
`Deleted 1 local branches` — no skipped count is accumulated or shown,
contradicting "the final report shows 1 deleted and 1 skipped". -/
theorem C8_counterexample :
    (delete_loop false false (fun _ => false) { repo := repoC8 }
        ["x", "y"]).map
      (fun st => (st.deleted, st.stderrLines.length, final_report st false))
      = .ok (1, 1, ["Deleted 1 local branches"]) := by decide

/-- C8 (amended): without `--remote`, the delete loop never aborts — every
branch is processed, each one either counted as deleted or reported on
stderr — and the final report shows the success count only. -/
theorem C8_batch (force : Bool) (answer : String → Bool)
    (branches : List String) (st0 : LoopState) :
    ∃ st, delete_loop force false answer st0 branches = .ok st ∧
      st.deleted + st.stderrLines.length
        = st0.deleted + st0.stderrLines.length + branches.length ∧
      final_report st false
        = ["Deleted " ++ toString st.deleted ++ " local branches"] := by
  induction branches generalizing st0 with
  | nil =>
    refine ⟨st0, rfl, by simp, ?_⟩
    simp [final_report]
  | cons b rest ih =>
    have hloop : delete_loop force false answer st0 (b :: rest)
        = match delete_loop_step force false answer st0 b with
          | .error e => .error e
          | .ok st1 => delete_loop force false answer st1 rest := rfl
    rcases hdel : delete_branch st0.repo b force with ⟨repo1, res⟩
    cases res with
    | ok u =>
      have hstep : delete_loop_step force false answer st0 b
          = .ok { st0 with
                  repo := repo1
                  stdoutLines := st0.stdoutLines
                    ++ ["Deleted local branch " ++ sq ++ b ++ sq]
                  deleted := st0.deleted + 1 } := by
        simp only [delete_loop_step, hdel, Bool.false_eq_true, if_false]
      obtain ⟨st, h1, h2, h3⟩ := ih _
      refine ⟨st, ?_, ?_, h3⟩
      · rw [hloop, hstep]
        exact h1
      · simp only at h2
        simp [h2]
        omega
    | error e =>
      have hstep : delete_loop_step force false answer st0 b
          = .ok { st0 with
                  repo := repo1
                  stderrLines := st0.stderrLines
                    ++ ["Failed to delete branch " ++ sq ++ b ++ sq ++ ": "
                        ++ errMsg e] } := by
        simp only [delete_loop_step, hdel]
      obtain ⟨st, h1, h2, h3⟩ := ih _
      refine ⟨st, ?_, ?_, h3⟩
      · rw [hloop, hstep]
        exact h1
      · simp only at h2
        simp [h2]
        omega

/-- C9: when the working-tree status query fails (`statuses = none`),
`has_uncommitted_changes` answers false — so the uncommitted-changes
warning and its blocking confirmation in `delete_repo` are skipped — while
`is_repo_clean` answers true, so the `--dirty` listing filter hides the
repository: the bias opposite to the merge-status default. -/
theorem C9_status_error_bias (repo : GitRepo) (h : repo.statuses = none) :
    has_uncommitted_changes repo = false ∧
    delete_repo_warns_uncommitted false repo = false ∧
    is_repo_clean repo = true ∧
    ls_keeps_entry true (some repo) = false := by
  refine ⟨?_, ?_, ?_, ?_⟩ <;>
    simp [has_uncommitted_changes, delete_repo_warns_uncommitted,
      is_repo_clean, ls_keeps_entry, h]

/-- Concrete repository whose status query fails. -/
def repoC9 : GitRepo :=
  { commits := [], parents := [], branches := [], statuses := none }

/-- C9 witness. -/
theorem C9_witness :
    has_uncommitted_changes repoC9 = false ∧
    delete_repo_warns_uncommitted false repoC9 = false ∧
    is_repo_clean repoC9 = true ∧
    ls_keeps_entry true (some repoC9) = false :=
  C9_status_error_bias repoC9 rfl

/-- C10: `remote_branch_exists` maps a missing
`refs/remotes/<remote>/<branch>` reference to `Ok(false)`, propagates
non-NotFound lookup errors, answers `Ok(true)` when the reference exists;
and in the `--remote` loop a deleted branch whose origin reference is
absent gets no remote-deletion offer while the iteration completes
normally. -/
theorem C10_remote_branch_exists (repo : GitRepo) (branch remote : String) :
    (remoteRefName remote branch ∉ repo.refs →
      remoteRefName remote branch ∉ repo.brokenRefs →
      remote_branch_exists repo branch remote = .ok false) ∧
    (remoteRefName remote branch ∉ repo.refs →
      remoteRefName remote branch ∈ repo.brokenRefs →
      remote_branch_exists repo branch remote = .error (.Git .generic)) ∧
    (remoteRefName remote branch ∈ repo.refs →
      remote_branch_exists repo branch remote = .ok true) ∧
    (∀ (st : LoopState) (answer : String → Bool) (force : Bool)
        (repo1 : GitRepo),
      delete_branch st.repo branch force = (repo1, .ok ()) →
      remote_branch_exists repo1 branch "origin" = .ok false →
      ∃ st2, delete_loop_step force true answer st branch = .ok st2 ∧
        st2.remoteOffers = st.remoteOffers ∧
        st2.deleted = st.deleted + 1) := by
  refine ⟨?_, ?_, ?_, ?_⟩
  · intro h1 h2
    simp only [remote_branch_exists, find_reference, if_neg h1, if_neg h2]
  · intro h1 h2
    simp only [remote_branch_exists, find_reference, if_neg h1, if_pos h2]
  · intro h1
    simp only [remote_branch_exists, find_reference, if_pos h1]
  · intro st answer force repo1 hdel hre
    refine ⟨{ st with
              repo := repo1
              stdoutLines := st.stdoutLines
                ++ ["Deleted local branch " ++ sq ++ branch ++ sq]
              deleted := st.deleted + 1 }, ?_, rfl, rfl⟩
    simp only [delete_loop_step, hdel, if_true, hre]

/-- Concrete repository for the C10 witness: branch `x` exists, no remote
references at all. -/
def repoC10 : GitRepo :=
  { commits := [0], parents := [], branches := [("x", 0)] }

/-- Concrete repository whose origin reference for `x` is broken (lookup
fails with a non-NotFound error). -/
def repoC10b : GitRepo :=
  { commits := [0], parents := [], branches := [("x", 0)],
    brokenRefs := ["refs/remotes/origin/x"] }

/-- C10 witness: missing reference gives `Ok(false)`; a broken reference
propagates its error; after a forced local delete with no origin
reference, the loop iteration completes with no remote offer. -/
theorem C10_witness :
    remote_branch_exists repoC10 "x" "origin" = .ok false ∧
    remote_branch_exists repoC10b "x" "origin" = .error (.Git .generic) ∧
    ∃ st2, delete_loop_step true true (fun _ => false) { repo := repoC10 } "x"
        = .ok st2 ∧
      st2.remoteOffers = ({ repo := repoC10 } : LoopState).remoteOffers ∧
      st2.deleted = ({ repo := repoC10 } : LoopState).deleted + 1 :=
  ⟨(C10_remote_branch_exists repoC10 "x" "origin").1 (by decide) (by decide),
   (C10_remote_branch_exists repoC10b "x" "origin").2.1 (by decide) (by decide),
   (C10_remote_branch_exists repoC10 "x" "origin").2.2.2
     { repo := repoC10 } (fun _ => false) true (removeBranch repoC10 "x")
     rfl rfl⟩


/-- C6 counterexample: the code recognizes the SSH shape only for the
literal `git@` user — `alice@github.com:org/repo.git` is handed to
`Url::parse` and rejected (its would-be scheme contains `@`), so the
claimed "for every SSH form user@host:path" equivalence fails; the same
URL with user `git` parses to the expected triple. -/
theorem C6_counterexample :
    parse_repo_url ("alice@github.com:org/repo.git".data)
      = .error "relative URL without a base" ∧
    parse_repo_url ("git@github.com:org/repo.git".data)
      = .ok ⟨"github.com".data, "org".data, "repo".data⟩ := by
  constructor <;> decide

/-- C6 (amended): restricted to the `git@` user, the SSH form
`git@host:user/repo.git` and the generic form
`https://host/user/repo.git` parse to the identical
{domain, user, repo} triple, for every host, user and repo name that are
nonempty and free of the separator characters, with the trailing `.git`
stripped. -/
theorem C6_parse_agreement (host u0 r : List Char) (u0h : Char)
    (u : List Char) (hu : u = u0h :: u0)
    (hhost_at : '@' ∉ host) (hhost_colon : ':' ∉ host)
    (hhost_slash : '/' ∉ host) (hhost_ne : host ≠ [])
    (hu_colon : ':' ∉ u) (hu_slash : '/' ∉ u)
    (hr_colon : ':' ∉ r) (hr_slash : '/' ∉ r)
    (hr_git : endsWithList ['.', 'g', 'i', 't'] r = false) :
    parse_repo_url ((['g', 'i', 't', '@'] ++ host)
        ++ ':' :: ((u ++ '/' :: r) ++ ['.', 'g', 'i', 't']))
      = .ok ⟨host, u, r⟩ ∧
    parse_repo_url ('h' :: 't' :: 't' :: 'p' :: 's' :: ':' :: '/' :: '/'
        :: (host ++ '/' :: ((u ++ '/' :: r) ++ ['.', 'g', 'i', 't'])))
      = .ok ⟨host, u, r⟩ :=
  ⟨parse_ssh_eval hhost_at hhost_colon hu_colon hu_slash hr_colon hr_slash
      hr_git,
   parse_https_eval hu hhost_at hhost_colon hhost_slash hhost_ne hu_slash
      hr_slash hr_git⟩

/-- C6 witness: both GitHub URL forms of the claim's example parse to
{github.com, org, repo}. -/
theorem C6_witness :
    parse_repo_url ((['g', 'i', 't', '@'] ++ "github.com".data)
        ++ ':' :: (("org".data ++ '/' :: "repo".data) ++ ['.', 'g', 'i', 't']))
      = .ok ⟨"github.com".data, "org".data, "repo".data⟩ ∧
    parse_repo_url ('h' :: 't' :: 't' :: 'p' :: 's' :: ':' :: '/' :: '/'
        :: ("github.com".data
            ++ '/' :: (("org".data ++ '/' :: "repo".data) ++ ['.', 'g', 'i', 't'])))
      = .ok ⟨"github.com".data, "org".data, "repo".data⟩ :=
  C6_parse_agreement "github.com".data "rg".data "repo".data 'o' "org".data
    rfl (by decide) (by decide) (by decide) (by decide) (by decide)
    (by decide) (by decide) (by decide) (by decide)

/-- C7: the rename choice is `base/repo-n` for the least `n ≥ 2` whose
path is free; the chosen target is never an existing path and differs from
the original `base/repo`; the rename clone issues no removal action; and
on the claim's example (`r` and `r-2` taken) the suffix 3 is chosen. -/
theorem C7_rename_on_collision (taken : List (List String))
    (base : List String) (repo : String) :
    2 ≤ rename_suffix taken base repo ∧
    (clone_with_renamed_dir taken base repo).1
      = base ++ [renameName repo (rename_suffix taken base repo)] ∧
    (clone_with_renamed_dir taken base repo).1 ∉ taken ∧
    (∀ m, 2 ≤ m → m < rename_suffix taken base repo →
      (base ++ [renameName repo m]) ∈ taken) ∧
    (clone_with_renamed_dir taken base repo).1 ≠ base ++ [repo] ∧
    (∀ a ∈ (clone_with_renamed_dir taken base repo).2, ∀ p,
      a ≠ CloneAction.removeDirAll p) ∧
    find_rename_path [["d", "u", "r"], ["d", "u", "r-2"]] ["d", "u"] "r"
      = ["d", "u", "r-3"] := by
  obtain ⟨h2, hfree, hlow⟩ := rename_suffix_spec taken base repo
  refine ⟨h2, rfl, hfree, hlow, ?_, ?_, ?_⟩
  · intro heq
    have hname : renameName repo (rename_suffix taken base repo) = repo := by
      have := List.append_cancel_left
        (heq : base ++ [renameName repo (rename_suffix taken base repo)]
          = base ++ [repo])
      simpa using this
    have hdata := congrArg String.data hname
    have hd : (renameName repo (rename_suffix taken base repo)).data
        = (repo.data ++ ['-'])
          ++ (natToDec (rename_suffix taken base repo)).data := rfl
    rw [hd] at hdata
    have hlen := congrArg List.length hdata
    rw [List.length_append, List.length_append] at hlen
    simp only [List.length_cons, List.length_nil] at hlen
    omega
  · intro a ha p
    have hm : a = CloneAction.createDirAll base ∨
        a = CloneAction.cloneInto (find_rename_path taken base repo) := by
      simpa [clone_with_renamed_dir] using ha
    rcases hm with rfl | rfl <;> intro hcon <;> cases hcon
  · decide


/-- C7 witness: on the claim's example (paths `d/u/r` and `d/u/r-2`
taken), the chosen clone target is the suffixed path, it is free, and the
skipped suffix 2 was indeed taken. -/
theorem C7_witness :
    (clone_with_renamed_dir [["d", "u", "r"], ["d", "u", "r-2"]] ["d", "u"]
        "r").1
      = ["d", "u"] ++ [renameName "r"
          (rename_suffix [["d", "u", "r"], ["d", "u", "r-2"]] ["d", "u"] "r")] ∧
    (clone_with_renamed_dir [["d", "u", "r"], ["d", "u", "r-2"]] ["d", "u"]
        "r").1
      ∉ [["d", "u", "r"], ["d", "u", "r-2"]] ∧
    (["d", "u"] ++ [renameName "r" 2]) ∈ [["d", "u", "r"], ["d", "u", "r-2"]] :=
  ⟨(C7_rename_on_collision [["d", "u", "r"], ["d", "u", "r-2"]] ["d", "u"]
      "r").2.1,
   (C7_rename_on_collision [["d", "u", "r"], ["d", "u", "r-2"]] ["d", "u"]
      "r").2.2.1,
   (C7_rename_on_collision [["d", "u", "r"], ["d", "u", "r-2"]] ["d", "u"]
      "r").2.2.2.1 2 (by omega) (by decide)⟩

end GitUtils
